import Mathlib

/-!
Verification of the masked training/evaluation engine of `train.py`
(ProtSeq2StrucAlpha).  The Python functions are shallowly embedded as
pure Lean functions: tensors become lists of integers, the random
permutation drawn by `torch.randperm` becomes an explicit permutation
parameter, the floating-point `masking_ratio` becomes the exact
rational `p / q` given by a pair of naturals, loss values become
rationals, and fallible operations (a `.item()` call that raises,
`torch.randperm` on a negative argument, a mean over an empty
selection that yields NaN) return `Option`.
-/

/-- Indices (in ascending order, starting from offset `k`) at which the
list holds `v`.  This is `(input_id == v).nonzero(as_tuple=True)[0]` of
`train.py` line 146. -/
def matchIdxs (v : Int) : List Int → Nat → List Nat
  | [], _ => []
  | x :: xs, k => if x = v then k :: matchIdxs v xs (k + 1) else matchIdxs v xs (k + 1)

/-- The end-of-sequence position used by `masking_struc_seqs_ids`
(`train.py` line 146): `.item()` on the tensor of matching indices
succeeds exactly when there is one single occurrence, and raises
otherwise (modelled as `none`). -/
def eosIndex (eosId : Int) (row : List Int) : Option Nat :=
  match matchIdxs eosId row 0 with
  | [i] => some i
  | _ => none

/-- Number of interior positions to mask, `train.py` line 148:
`max(1, int(seq_len * masking_ratio))` where the masking ratio is the
rational `p / q` and `seq_len` is nonnegative, so Python's truncating
`int()` is natural-number division. -/
def numElementsToMask (p q seqLen : Nat) : Nat :=
  max 1 (p * seqLen / q)

/-- Write `maskId` at each index of `idxs` (`input_id[idxs_to_mask] = mask_token_id`,
`train.py` line 150).  Out-of-range indices are ignored by `List.set`;
the theorems always supply in-range indices. -/
def applyMask (maskId : Int) (idxs : List Nat) (row : List Int) : List Int :=
  idxs.foldl (fun r i => r.set i maskId) row

/-- One iteration of the row loop of `masking_struc_seqs_ids`
(`train.py` lines 145-150).  `perm` stands for the permutation of
`0, …, seq_len - 1` produced by `torch.randperm seq_len`; theorems carry
the hypothesis that it permutes `List.range`.  `none` models a raised
exception: `.item()` failing on zero or several eos occurrences, or
`torch.randperm` on the negative length arising when the eos position
is 0. -/
def maskRowWithPerm (maskId eosId : Int) (p q : Nat) (perm : List Nat) (row : List Int) :
    Option (List Int × List Nat) :=
  match eosIndex eosId row with
  | none => none
  | some endIdx =>
    if endIdx = 0 then none
    else
      let seqLen := endIdx - 1
      let n := numElementsToMask p q seqLen
      let idxs := (perm.take n).map (fun i => i + 1)
      some (applyMask maskId idxs row, idxs)

/-- The whole of `masking_struc_seqs_ids` over the cloned batch: each
row is masked independently with its own permutation; an exception in
any row aborts the call. -/
def maskBatchWithPerms (maskId eosId : Int) (p q : Nat) :
    List (List Nat) → List (List Int) → Option (List (List Int) × List (List Nat))
  | _, [] => some ([], [])
  | [], _ :: _ => none
  | perm :: prest, row :: rest =>
    match maskRowWithPerm maskId eosId p q perm row, maskBatchWithPerms maskId eosId p q prest rest with
    | some (m, idxs), some (ms, idxss) => some (m :: ms, idxs :: idxss)
    | _, _ => none

/-- Label derivation of `train.py` lines 106-111 (train phase) and
193-198 (evaluate phase) for one row: clone the original ids and
overwrite with -100 every position at which the masked row does not
hold the mask id. -/
def deriveLabels (maskId : Int) (orig masked : List Int) : List Int :=
  (orig.zip masked).map (fun p => if p.2 = maskId then p.1 else -100)

/-- Label derivation for a whole batch, row by row. -/
def deriveLabelsBatch (maskId : Int) (orig masked : List (List Int)) : List (List Int) :=
  (orig.zip masked).map (fun p => deriveLabels maskId p.1 p.2)

/-- Maximum of a list of rationals (`torch.max(logits, dim=-1)` along the
vocabulary axis; the vocabulary is never empty in the program). -/
def listMax : List ℚ → ℚ
  | [] => 0
  | x :: xs => xs.foldl max x

/-- Per-position logit normalization of `train.py` lines 115-116 and 202:
divide the whole logit vector by its maximum plus epsilon. -/
def normalizeRow (eps : ℚ) (row : List ℚ) : List ℚ :=
  row.map (fun x => x / (listMax row + eps))

/-- The loss path of `train.py` lines 113-122 (identical at lines
200-206): flatten the batch and sequence axes (`view`), divide each
position's logit vector by its maximum plus epsilon, then apply the
criterion `nn.CrossEntropyLoss(ignore_index=-100, reduction='mean')`
(line 354).  The criterion is external library code, so its
per-position categorical cross-entropy is the abstract parameter `ce`;
the mean reduction skips every position labelled -100 and divides by
the number of surviving positions, which for an all-ignored batch is a
0/0 mean, i.e. NaN — modelled as `none`. -/
def maskedLossCode (ce : List ℚ → Int → ℚ) (eps : ℚ)
    (logits : List (List (List ℚ))) (labels : List (List Int)) : Option ℚ :=
  let flat := logits.flatten
  let normed := flat.map (normalizeRow eps)
  let flatLabels := labels.flatten
  let acc := (normed.zip flatLabels).foldl
    (fun (a : ℚ × Nat) p => if p.2 = -100 then a else (a.1 + ce p.1 p.2, a.2 + 1)) (0, 0)
  if acc.2 = 0 then none else some (acc.1 / (acc.2 : ℚ))

/-- The masked-loss contract as the specification words it: flatten
batch and sequence dimensions, keep only the positions whose label is
not the ignore value, normalize each kept position's logit vector by
dividing by its maximum plus epsilon, and average the per-position
cross-entropy over the kept positions only. -/
def maskedLossSpec (ce : List ℚ → Int → ℚ) (eps : ℚ)
    (logits : List (List (List ℚ))) (labels : List (List Int)) : Option ℚ :=
  let kept := (logits.flatten.zip labels.flatten).filter (fun p => p.2 ≠ -100)
  match kept with
  | [] => none
  | _ => some ((kept.map (fun p => ce (normalizeRow eps p.1) p.2)).sum / (kept.length : ℚ))

/-- Per-batch accuracy counters of `train.py` lines 210-218: over the
zipped prediction/label positions, count those whose label is not -100
(`total_samples`) and among them those where the prediction equals the
label (`total_correct`). -/
def batchCounts (b : List Int × List Int) : Nat × Nat :=
  (((b.1.zip b.2).filter (fun p => p.2 ≠ -100 ∧ p.1 = p.2)).length,
   ((b.1.zip b.2).filter (fun p => p.2 ≠ -100)).length)

/-- Epoch accuracy of `evaluate_model` (`train.py` lines 209-226):
accumulate `total_correct` and `total_samples` batch by batch, and at
the end return `total_correct / total_samples` when `total_samples > 0`
and otherwise the fallback 0. -/
def epochAccuracy (batches : List (List Int × List Int)) : ℚ :=
  let acc := batches.foldl (fun (a : Nat × Nat) b =>
    (a.1 + (batchCounts b).1, a.2 + (batchCounts b).2)) (0, 0)
  if 0 < acc.2 then (acc.1 : ℚ) / (acc.2 : ℚ) else 0

/-- Accuracy as the specification words it, on the flattened epoch:
restrict to positions whose label is not the ignore value, and divide
the number of correct predictions by the number of considered
positions, with fallback 0 when nothing is considered. -/
def specAccuracy (preds labels : List Int) : ℚ :=
  let considered := (preds.zip labels).filter (fun p => p.2 ≠ -100)
  if 0 < considered.length then
    ((considered.filter (fun p => p.1 = p.2)).length : ℚ) / (considered.length : ℚ)
  else 0

/-- The two phases of one epoch of the training loop. -/
inductive Phase
  | train
  | eval
deriving DecidableEq, Repr

/-- Both phases of epoch `e`, in the order of `main`: train then evaluate. -/
def epochBody (e : Nat) : List (Nat × Phase) :=
  [(e, Phase.train), (e, Phase.eval)]

/-- Phases that the epoch loop of `main` (`train.py` lines 364-391)
actually executes: the body of the first iteration runs train then
evaluate and then calls `exit()` (line 391), so no later epoch is ever
reached. -/
def executedPhases (epochs : Nat) : List (Nat × Phase) :=
  if epochs = 0 then [] else epochBody 0

/-- Phases the specification expects: every configured epoch runs a
complete train phase followed by a complete evaluate phase. -/
def claimedPhases (epochs : Nat) : List (Nat × Phase) :=
  (List.range epochs).flatMap epochBody

/-- A 2-D integer tensor. -/
abbrev Tensor2 := List (List Int)

/-- A heap of tensors, addressed by allocation index; models which
tensor object an in-place write mutates. -/
abbrev Heap := List Tensor2

/-- Read a tensor reference. -/
def heapRead (h : Heap) (ref : Nat) : Tensor2 :=
  h.getD ref []

/-- Overwrite the tensor behind a reference (an in-place write such as
`input_id[idxs] = mask_token_id` goes through the reference of the
tensor the row was taken from). -/
def heapWrite (h : Heap) (ref : Nat) (t : Tensor2) : Heap :=
  h.set ref t

/-- The `.clone()` call of `train.py` line 144: allocate a fresh tensor
holding a copy of the argument's current value and return its reference. -/
def cloneTensor (h : Heap) (ref : Nat) : Heap × Nat :=
  (h ++ [heapRead h ref], h.length)

/-- The row loop of `masking_struc_seqs_ids` in the heap model: iterating
`for input_id in masked_decoder_input_ids` yields views into the clone,
so each masked row is written back through the clone's reference `c`. -/
def maskRowsLoop (maskId eosId : Int) (p q : Nat) (perms : List (List Nat)) (c : Nat) :
    List Nat → Heap → Option Heap
  | [], h => some h
  | i :: rest, h =>
    match maskRowWithPerm maskId eosId p q (perms.getD i []) ((heapRead h c).getD i []) with
    | none => none
    | some (mrow, _) =>
      maskRowsLoop maskId eosId p q perms c rest (heapWrite h c ((heapRead h c).set i mrow))

/-- Heap-level model of `masking_struc_seqs_ids` (`train.py` lines
137-152): clone the argument tensor, mask every row of the clone in
place, and return the clone's reference. -/
def maskingStrucSeqsIdsHeap (maskId eosId : Int) (p q : Nat) (perms : List (List Nat))
    (h : Heap) (ref : Nat) : Option (Heap × Nat) :=
  let hc := cloneTensor h ref
  (maskRowsLoop maskId eosId p q perms hc.2 (List.range (heapRead hc.1 hc.2).length) hc.1).map
    (fun h2 => (h2, hc.2))

/-- Reading a set list at any index, with default. -/
theorem getD_set {α : Type} (l : List α) (i j : Nat) (a d : α) :
    (l.set i a).getD j d = if j = i ∧ j < l.length then a else l.getD j d := by
  induction l generalizing i j with
  | nil => simp
  | cons x xs ih =>
    cases i with
    | zero =>
      cases j with
      | zero => simp
      | succ j' => simp
    | succ i' =>
      cases j with
      | zero => simp
      | succ j' =>
        simp only [List.set_cons_succ, List.getD_cons_succ, List.length_cons]
        rw [ih i' j']
        simp [Nat.succ_lt_succ_iff]

theorem applyMask_step (m : Int) (j : Nat) (t : List Nat) (row : List Int) :
    applyMask m (j :: t) row = applyMask m t (row.set j m) := rfl

theorem applyMask_length (m : Int) (idxs : List Nat) (row : List Int) :
    (applyMask m idxs row).length = row.length := by
  induction idxs generalizing row with
  | nil => rfl
  | cons j t ih => rw [applyMask_step, ih, List.length_set]

theorem applyMask_getD (m : Int) (idxs : List Nat) (row : List Int) (i : Nat) :
    (applyMask m idxs row).getD i 0 = if i ∈ idxs ∧ i < row.length then m else row.getD i 0 := by
  induction idxs generalizing row with
  | nil => simp [applyMask]
  | cons j t ih =>
    rw [applyMask_step, ih, List.length_set, getD_set]
    by_cases h2 : i = j
    · subst h2
      by_cases h3 : i < row.length <;> by_cases h1 : i ∈ t <;> simp [h1, h3]
    · by_cases h1 : i ∈ t <;> by_cases h3 : i < row.length <;> simp [h1, h2, h3]

theorem matchIdxs_length (v : Int) (xs : List Int) : ∀ k, (matchIdxs v xs k).length = xs.count v := by
  induction xs with
  | nil => intro k; simp [matchIdxs]
  | cons x t ih =>
    intro k
    by_cases hx : x = v <;> simp [matchIdxs, hx, ih, List.count_cons]

theorem matchIdxs_mem (v : Int) (xs : List Int) : ∀ k i, i ∈ matchIdxs v xs k →
    k ≤ i ∧ i - k < xs.length ∧ xs.getD (i - k) 0 = v := by
  induction xs with
  | nil => intro k i h; simp [matchIdxs] at h
  | cons x t ih =>
    intro k i h
    by_cases hx : x = v
    · rw [matchIdxs, if_pos hx] at h
      rcases List.mem_cons.mp h with rfl | h'
      · simpa using hx
      · obtain ⟨h1, h2, h3⟩ := ih (k + 1) i h'
        refine ⟨by omega, by simp; omega, ?_⟩
        rw [show i - k = (i - (k + 1)) + 1 by omega, List.getD_cons_succ]
        exact h3
    · rw [matchIdxs, if_neg hx] at h
      obtain ⟨h1, h2, h3⟩ := ih (k + 1) i h
      refine ⟨by omega, by simp; omega, ?_⟩
      rw [show i - k = (i - (k + 1)) + 1 by omega, List.getD_cons_succ]
      exact h3

theorem eosIndex_some (eosId : Int) (row : List Int) (i : Nat)
    (h : eosIndex eosId row = some i) :
    row.count eosId = 1 ∧ i < row.length ∧ row.getD i 0 = eosId := by
  unfold eosIndex at h
  cases hm : matchIdxs eosId row 0 with
  | nil => rw [hm] at h; exact absurd h (by simp)
  | cons a t =>
    cases t with
    | nil =>
      rw [hm] at h
      have ha : a = i := by simpa using h
      subst ha
      have hc : row.count eosId = 1 := by
        have hlen := matchIdxs_length eosId row 0
        rw [hm] at hlen
        simpa using hlen.symm
      have hmem := matchIdxs_mem eosId row 0 a (by rw [hm]; simp)
      exact ⟨hc, by simpa using hmem.2.1, by simpa using hmem.2.2⟩
    | cons b t2 => rw [hm] at h; exact absurd h (by simp)

theorem eosIndex_none_of_count (eosId : Int) (row : List Int)
    (h : row.count eosId ≠ 1) : eosIndex eosId row = none := by
  unfold eosIndex
  cases hm : matchIdxs eosId row 0 with
  | nil => rfl
  | cons a t =>
    cases t with
    | nil =>
      exfalso
      apply h
      have := matchIdxs_length eosId row 0
      rw [hm] at this
      simpa using this.symm
    | cons b t2 => rfl

theorem maskRowWithPerm_some (maskId eosId : Int) (p q : Nat) (perm : List Nat)
    (row masked : List Int) (idxs : List Nat)
    (h : maskRowWithPerm maskId eosId p q perm row = some (masked, idxs)) :
    ∃ endIdx, eosIndex eosId row = some endIdx ∧ endIdx ≠ 0 ∧
      idxs = (perm.take (numElementsToMask p q (endIdx - 1))).map (fun i => i + 1) ∧
      masked = applyMask maskId idxs row := by
  cases he : eosIndex eosId row with
  | none => simp only [maskRowWithPerm, he] at h; exact absurd h (by simp)
  | some e =>
    by_cases h0 : e = 0
    · simp only [maskRowWithPerm, he, h0, if_pos] at h; exact absurd h (by simp)
    · simp only [maskRowWithPerm, he, if_neg h0, Option.some.injEq, Prod.mk.injEq] at h
      refine ⟨e, rfl, h0, h.2.symm, ?_⟩
      rw [← h.2]
      exact h.1.symm

theorem numElementsToMask_cast (p q L : Nat) :
    ((numElementsToMask p q L : Nat) : ℤ) = max 1 ⌊((p : ℚ) / q) * L⌋ := by
  unfold numElementsToMask
  rw [show ((p : ℚ) / q) * L = ((p * L : Nat) : ℚ) / ((q : Nat) : ℚ) by push_cast; ring]
  rw [Rat.floor_natCast_div_natCast]
  rw [← Int.natCast_div]
  rw [Nat.cast_max]
  rfl

/-- Claim C1 (amended): for a decoder row whose unique eos occurrence is at
position L + 1 with interior length L at least 1, and a masking ratio p / q
in the interval from 0 exclusive to 1 inclusive, the mask generator selects
exactly max(1, floor((p/q) * L)) distinct positions, all strictly between
position 0 and the eos position.  The count uses truncation (Python `int`)
rather than rounding. -/
theorem maskRow_count_distinct_interior
    (maskId eosId : Int) (p q : Nat) (perm : List Nat) (row : List Int) (L : Nat)
    (heos : eosIndex eosId row = some (L + 1))
    (hL : 1 ≤ L) (hp : 0 < p) (hpq : p ≤ q)
    (hperm : List.Perm perm (List.range L)) :
    ∃ masked idxs, maskRowWithPerm maskId eosId p q perm row = some (masked, idxs) ∧
      (idxs.length : ℤ) = max 1 ⌊((p : ℚ) / q) * L⌋ ∧
      idxs.Nodup ∧ ∀ i ∈ idxs, 0 < i ∧ i < L + 1 := by
  have hq : 0 < q := lt_of_lt_of_le hp hpq
  have hnle : numElementsToMask p q L ≤ L := by
    unfold numElementsToMask
    have hdiv : p * L / q ≤ L := by
      calc p * L / q ≤ q * L / q := Nat.div_le_div_right (Nat.mul_le_mul_right L hpq)
        _ = L := by rw [Nat.mul_div_cancel_left L hq]
    omega
  have hplen : perm.length = L := by
    rw [hperm.length_eq, List.length_range]
  have hstep : maskRowWithPerm maskId eosId p q perm row =
      some (applyMask maskId ((perm.take (numElementsToMask p q L)).map (fun i => i + 1)) row,
        (perm.take (numElementsToMask p q L)).map (fun i => i + 1)) := by
    simp only [maskRowWithPerm, heos]
    rfl
  refine ⟨_, _, hstep, ?_, ?_, ?_⟩
  · rw [List.length_map, List.length_take, hplen, min_eq_left hnle]
    exact numElementsToMask_cast p q L
  · refine List.Nodup.map (fun a b hab => by omega) ?_
    exact ((List.take_sublist _ _).nodup) (hperm.symm.nodup (List.nodup_range L))
  · intro i hi
    obtain ⟨j, hj, rfl⟩ := List.mem_map.mp hi
    have hjp : j ∈ perm := List.mem_of_mem_take hj
    have hjL : j < L := List.mem_range.mp (hperm.mem_iff.mp hjp)
    omega

/-- Claim C1 witness: a concrete run with interior length 3 and ratio 1/2. -/
theorem maskRow_count_distinct_interior_witness :
    ∃ masked idxs, maskRowWithPerm 99 4 1 2 [0, 1, 2] [7, 10, 11, 12, 4] = some (masked, idxs) ∧
      (idxs.length : ℤ) = max 1 ⌊((1 : ℚ) / 2) * 3⌋ ∧
      idxs.Nodup ∧ ∀ i ∈ idxs, 0 < i ∧ i < 3 + 1 :=
  maskRow_count_distinct_interior 99 4 1 2 [0, 1, 2] [7, 10, 11, 12, 4] 3
    (by decide) (by decide) (by decide) (by decide) (by decide)

/-- Claim C1 counterexample: with interior length 3 and ratio 1/2, the code
selects max(1, int(1.5)) = 1 position, while the claim announces
max(1, round(1.5)) = 2 positions. -/
theorem maskRow_count_not_round :
    (maskRowWithPerm 99 4 1 2 [0, 1, 2] [7, 10, 11, 12, 4]).map (fun pr => (pr.2.length : ℤ)) =
      some 1 ∧
    max 1 (round ((1 : ℚ) / 2 * 3)) = (2 : ℤ) ∧
    (maskRowWithPerm 99 4 1 2 [0, 1, 2] [7, 10, 11, 12, 4]).map (fun pr => (pr.2.length : ℤ)) ≠
      some (max 1 (round ((1 : ℚ) / 2 * 3))) := by
  have h1 : (maskRowWithPerm 99 4 1 2 [0, 1, 2] [7, 10, 11, 12, 4]).map
      (fun pr => (pr.2.length : ℤ)) = some 1 := by decide
  have h2 : max 1 (round ((1 : ℚ) / 2 * 3)) = (2 : ℤ) := by
    rw [show round ((1 : ℚ) / 2 * 3) = 2 by norm_num [round_eq]]
    norm_num [max_def]
  refine ⟨h1, h2, ?_⟩
  rw [h1, h2]
  simp

/-- Claim C5: on a row whose eos immediately follows the begin sentinel
(interior length 0), `masking_struc_seqs_ids` silently succeeds with an
empty mask set and an unchanged row — `torch.randperm(0)[:1]` is empty —
instead of signalling an input-validation failure as the specification
requires. -/
theorem maskRow_silent_on_empty_interior :
    maskRowWithPerm 99 4 1 2 [] [0, 4] = some ([0, 4], []) := by decide

/-- Claim C6 counterexample: on a row containing eos twice (first
occurrence at position 3, interior length 2), the claim announces masking
from the first occurrence, but the code's `.item()` raises (models as
`none`). -/
theorem eosLookup_not_first_occurrence :
    maskRowWithPerm 99 4 1 2 [0, 1] [7, 8, 9, 4, 4] = none ∧
    (4 : Int) ∈ [(7 : Int), 8, 9, 4, 4] ∧ matchIdxs 4 [7, 8, 9, 4, 4] 0 = [3, 4] := by
  refine ⟨by decide, by decide, by decide⟩

/-- Claim C6 (amended): the mask generator locates the eos position as the
unique occurrence of eos_id; a row with zero — or more than one —
occurrences makes the whole operation fail (raise) rather than produce a
masked row, and a successful lookup returns the position of that unique
occurrence. -/
theorem eosLookup_unique_or_fatal (eosId : Int) (row : List Int) :
    (row.count eosId ≠ 1 →
      ∀ maskId p q perm, maskRowWithPerm maskId eosId p q perm row = none) ∧
    (∀ i, eosIndex eosId row = some i → row.count eosId = 1 ∧ row.getD i 0 = eosId) := by
  constructor
  · intro hc maskId p q perm
    have hnone := eosIndex_none_of_count eosId row hc
    simp only [maskRowWithPerm, hnone]
  · intro i hi
    obtain ⟨h1, _, h3⟩ := eosIndex_some eosId row i hi
    exact ⟨h1, h3⟩

/-- Claim C6 witness: a row with two eos occurrences makes the masking
call fail. -/
theorem eosLookup_unique_or_fatal_witness :
    maskRowWithPerm 99 4 1 2 [] [7, 4, 4] = none :=
  (eosLookup_unique_or_fatal 4 [7, 4, 4]).1 (by decide) 99 1 2 []

/-- Pointwise description of a successful masking call: the masked row
holds the mask id exactly at the selected positions (provided the
original row did not already contain the mask id) and the original id
elsewhere. -/
theorem maskRow_getD_spec (maskId eosId : Int) (p q : Nat) (perm : List Nat)
    (row masked : List Int) (idxs : List Nat)
    (h : maskRowWithPerm maskId eosId p q perm row = some (masked, idxs))
    (hclean : maskId ∉ row) :
    masked.length = row.length ∧ ∀ i, i < row.length →
      ((masked.getD i 0 = maskId ↔ i ∈ idxs) ∧
       (i ∉ idxs → masked.getD i 0 = row.getD i 0)) := by
  obtain ⟨endIdx, -, -, -, hmask⟩ := maskRowWithPerm_some maskId eosId p q perm row masked idxs h
  subst hmask
  refine ⟨applyMask_length maskId idxs row, fun i hi => ?_⟩
  rw [applyMask_getD]
  by_cases hmem : i ∈ idxs
  · simp [hmem, hi]
  · rw [if_neg (fun hcontra => hmem hcontra.1)]
    have hmemrow : row.getD i 0 ∈ row := by
      rw [List.getD_eq_getElem row 0 hi]
      exact List.getElem_mem hi
    exact ⟨⟨fun he => absurd (he ▸ hmemrow) hclean, fun hf => absurd hf hmem⟩, fun _ => rfl⟩


/-- Claim C7: for a decoder row that does not already contain the mask id
(tokenized rows never do), the masked row equals mask_id exactly at the
returned mask positions and retains the original id everywhere else. -/
theorem maskedRow_exact (maskId eosId : Int) (p q : Nat) (perm : List Nat)
    (row masked : List Int) (idxs : List Nat)
    (h : maskRowWithPerm maskId eosId p q perm row = some (masked, idxs))
    (hclean : maskId ∉ row) :
    masked.length = row.length ∧ ∀ i, i < row.length →
      ((masked.getD i 0 = maskId ↔ i ∈ idxs) ∧
       (i ∉ idxs → masked.getD i 0 = row.getD i 0)) :=
  maskRow_getD_spec maskId eosId p q perm row masked idxs h hclean

/-- Claim C7 witness: concrete masked row, position 1 masked, position 2
untouched. -/
theorem maskedRow_exact_witness :
    (([7, 99, 11, 12, 4] : List Int).getD 1 0 = 99 ↔ 1 ∈ [1]) ∧
    (1 ∉ [1] → ([7, 99, 11, 12, 4] : List Int).getD 1 0 = ([7, 10, 11, 12, 4] : List Int).getD 1 0) :=
  (maskedRow_exact 99 4 1 2 [0, 1, 2] [7, 10, 11, 12, 4] [7, 99, 11, 12, 4] [1]
    (by decide) (by decide)).2 1 (by decide)

theorem deriveLabels_getD (maskId : Int) (row m : List Int) (hlen : m.length = row.length)
    (i : Nat) (hi : i < row.length) :
    (deriveLabels maskId row m).getD i (-100) =
      if m.getD i 0 = maskId then row.getD i 0 else -100 := by
  have hd : i < (deriveLabels maskId row m).length := by
    simp only [deriveLabels, List.length_map, List.length_zip, hlen]
    omega
  rw [List.getD_eq_getElem _ _ hd, List.getD_eq_getElem m 0 (by omega),
    List.getD_eq_getElem row 0 hi]
  simp [deriveLabels, List.getElem_zip]

theorem deriveLabels_nonignore_iff (maskId eosId : Int) (p q : Nat) (perm : List Nat)
    (row m : List Int) (idxs : List Nat)
    (h : maskRowWithPerm maskId eosId p q perm row = some (m, idxs))
    (h1 : maskId ∉ row) (h2 : ∀ x ∈ row, 0 ≤ x)
    (i : Nat) (hi : i < row.length) :
    ((deriveLabels maskId row m).getD i (-100) ≠ -100) ↔ i ∈ idxs := by
  obtain ⟨hlen, hii⟩ := maskRow_getD_spec maskId eosId p q perm row m idxs h h1
  rw [deriveLabels_getD maskId row m hlen i hi]
  by_cases hmem : i ∈ idxs
  · rw [if_pos ((hii i hi).1.mpr hmem)]
    have hmemrow : row.getD i 0 ∈ row := by
      rw [List.getD_eq_getElem row 0 hi]
      exact List.getElem_mem hi
    have := h2 _ hmemrow
    simp only [hmem, iff_true]
    omega
  · have hne : m.getD i 0 ≠ maskId := fun he => hmem ((hii i hi).1.mp he)
    rw [if_neg hne]
    simp [hmem]

/-- Claim C2: in both the train and the evaluate phase the label tensor is
derived from the original decoder ids and the masked clone; provided the
original rows hold only nonnegative token ids and no mask id (tokenized
rows always do), a label position holds a non-ignore value (a real
original id rather than -100) exactly when the masking call selected that
position in its row. -/
theorem labels_nonignore_iff_selected
    (maskId eosId : Int) (p q : Nat) (perms : List (List Nat))
    (rows masked : List (List Int)) (idxss : List (List Nat))
    (h : maskBatchWithPerms maskId eosId p q perms rows = some (masked, idxss))
    (hclean : ∀ row ∈ rows, maskId ∉ row ∧ ∀ x ∈ row, 0 ≤ x)
    (k : Nat) (hk : k < rows.length) (i : Nat) (hi : i < (rows.getD k []).length) :
    (((deriveLabelsBatch maskId rows masked).getD k []).getD i (-100) ≠ -100) ↔
      i ∈ idxss.getD k [] := by
  induction rows generalizing perms masked idxss k with
  | nil => simp at hk
  | cons row rest ih =>
    cases perms with
    | nil => simp [maskBatchWithPerms] at h
    | cons perm prest =>
      cases h1 : maskRowWithPerm maskId eosId p q perm row with
      | none => rw [maskBatchWithPerms, h1] at h; exact absurd h (by simp)
      | some pr =>
        cases h2 : maskBatchWithPerms maskId eosId p q prest rest with
        | none =>
          rw [maskBatchWithPerms, h1, h2] at h
          exact absurd h (by simp)
        | some pr2 =>
          obtain ⟨m, idxs⟩ := pr
          obtain ⟨ms, idxss2⟩ := pr2
          rw [maskBatchWithPerms, h1, h2] at h
          simp only [Option.some.injEq, Prod.mk.injEq] at h
          obtain ⟨hm, hs⟩ := h
          subst hm
          subst hs
          have hexp : deriveLabelsBatch maskId (row :: rest) (m :: ms) =
              deriveLabels maskId row m :: deriveLabelsBatch maskId rest ms := by
            simp [deriveLabelsBatch]
          cases k with
          | zero =>
            rw [hexp, List.getD_cons_zero, List.getD_cons_zero]
            exact deriveLabels_nonignore_iff maskId eosId p q perm row m idxs h1
              (hclean row (by simp)).1 (hclean row (by simp)).2 i (by simpa using hi)
          | succ k2 =>
            rw [hexp, List.getD_cons_succ, List.getD_cons_succ]
            exact ih prest ms idxss2 h2 (fun r hr => hclean r (by simp [hr])) k2
              (by simpa using hk) (by simpa using hi)

/-- Claim C2 witness: on the batch with one row of interior length 3 and
ratio 1/2, position 1 was selected and is the only non-ignore label. -/
theorem labels_nonignore_iff_selected_witness :
    ((((deriveLabelsBatch 99 [[7, 10, 11, 12, 4]] [[7, 99, 11, 12, 4]]).getD 0 []).getD 1 (-100) ≠ -100) ↔
      1 ∈ ([[1]] : List (List Nat)).getD 0 []) :=
  labels_nonignore_iff_selected 99 4 1 2 [[0, 1, 2]] [[7, 10, 11, 12, 4]]
    [[7, 99, 11, 12, 4]] [[1]] (by decide) (by decide) 0 (by decide) 1 (by decide)

/-- Claim C3 (code evaluated at the failing input): with 2 configured
epochs the loop executes the two phases of epoch 0 and then exits; the
expected schedule of all configured epochs is not executed. -/
theorem trainLoop_exits_after_first_epoch :
    executedPhases 2 = [(0, Phase.train), (0, Phase.eval)] ∧
    executedPhases 2 ≠ claimedPhases 2 := by
  exact ⟨by decide, by decide⟩

/-- Claim C4 counterexample: on a batch whose labels are all the ignore
value, the loss computation does not return any defined sentinel value:
the mean reduction divides by zero surviving positions, the NaN of the
source (modelled as `none`). -/
theorem maskedLoss_allIgnored_cex :
    maskedLossCode (fun _ _ => 0) 1 [[[1, 2]]] [[-100]] = none := by decide

/-- Claim C4 (amended): when every label of the batch equals the ignore
value -100, the loss computation yields an undefined result (NaN from the
0/0 mean of `nn.CrossEntropyLoss` with `reduction='mean'`), for every
cross-entropy kernel and epsilon; no sentinel is produced at this
boundary — only the epoch-accuracy finalization carries a 0 fallback. -/
theorem maskedLoss_allIgnored_none (ce : List ℚ → Int → ℚ) (eps : ℚ)
    (logits : List (List (List ℚ))) (labels : List (List Int))
    (h : ∀ l ∈ labels.flatten, l = -100) :
    maskedLossCode ce eps logits labels = none := by
  simp only [maskedLossCode]
  have hfold : ∀ (l : List (List ℚ × Int)) (a : ℚ × Nat), (∀ pr ∈ l, pr.2 = -100) →
      l.foldl (fun (a : ℚ × Nat) p => if p.2 = -100 then a else (a.1 + ce p.1 p.2, a.2 + 1)) a = a := by
    intro l
    induction l with
    | nil => intro a _; rfl
    | cons x t iht =>
      intro a hall
      rw [List.foldl_cons, if_pos (hall x (by simp))]
      exact iht a (fun pr hpr => hall pr (by simp [hpr]))
  rw [hfold _ _ (fun pr hpr => h pr.2 (List.of_mem_zip hpr).2)]
  rfl

/-- Claim C4 amended witness: concrete all-ignored batch. -/
theorem maskedLoss_allIgnored_none_witness :
    maskedLossCode (fun _ _ => 1) 2 [[[1, 2], [3, 4]]] [[-100, -100]] = none :=
  maskedLoss_allIgnored_none (fun _ _ => 1) 2 [[[1, 2], [3, 4]]] [[-100, -100]] (by decide)

theorem lossFoldl (g : List ℚ × Int → ℚ) :
    ∀ (l : List (List ℚ × Int)) (s : ℚ) (c : Nat),
      l.foldl (fun (a : ℚ × Nat) p => if p.2 = -100 then a else (a.1 + g p, a.2 + 1)) (s, c) =
        (s + ((l.filter (fun p => p.2 ≠ -100)).map g).sum,
         c + (l.filter (fun p => p.2 ≠ -100)).length) := by
  intro l
  induction l with
  | nil => intro s c; simp
  | cons x t ih =>
    intro s c
    by_cases hx : x.2 = -100
    · rw [List.foldl_cons, if_pos hx, ih]
      simp [List.filter_cons, hx]
    · rw [List.foldl_cons, if_neg hx, ih]
      have hfil : (x :: t).filter (fun p => p.2 ≠ -100) = x :: t.filter (fun p => p.2 ≠ -100) := by
        simp [List.filter_cons, hx]
      rw [hfil]
      simp only [List.map_cons, List.sum_cons, List.length_cons, Prod.mk.injEq]
      constructor
      · ring
      · omega

/-- Claim C8: the loss path of the code — flatten batch and sequence axes,
divide each position's logit vector by its maximum plus epsilon (the
deliberate deviation from subtract-max stabilization, witnessed by the
second conjunct), then cross-entropy with every ignore-labelled position
excluded from numerator and denominator — computes exactly the
specification's masked mean over non-ignored positions, for every
cross-entropy kernel. -/
theorem maskedLoss_refines_spec :
    (∀ (ce : List ℚ → Int → ℚ) (eps : ℚ) (logits : List (List (List ℚ)))
      (labels : List (List Int)),
      maskedLossCode ce eps logits labels = maskedLossSpec ce eps logits labels) ∧
    normalizeRow 1 [1, 2] ≠ [1, 2].map (fun x => x - listMax [1, 2]) := by
  constructor
  · intro ce eps logits labels
    simp only [maskedLossCode, maskedLossSpec]
    rw [List.zip_map_left, List.foldl_map]
    simp only [Prod.map, id_eq]
    rw [lossFoldl (fun p => ce (normalizeRow eps p.1) p.2)]
    simp only [zero_add]
    cases hke : (logits.flatten.zip labels.flatten).filter (fun p => p.2 ≠ -100) with
    | nil => simp
    | cons a t => simp
  · intro hc
    have hmax : listMax [(1 : ℚ), 2] = 2 := by
      show max (1 : ℚ) 2 = 2
      norm_num
    rw [hmax] at hc
    simp only [normalizeRow, hmax, List.map_cons, List.map_nil] at hc
    have h1 : (1 : ℚ) / (2 + 1) = 1 - 2 := by
      have := congrArg (fun l => l.headD 0) hc
      simpa using this
    norm_num at h1

/-- Claim C8 witness: concrete batch where one position is ignored. -/
theorem maskedLoss_refines_spec_witness :
    maskedLossCode (fun _ _ => 0) 1 [[[1, 2], [3, 4]]] [[5, -100]] =
      maskedLossSpec (fun _ _ => 0) 1 [[[1, 2], [3, 4]]] [[5, -100]] :=
  maskedLoss_refines_spec.1 (fun _ _ => 0) 1 [[[1, 2], [3, 4]]] [[5, -100]]

theorem countersFold :
    ∀ (batches : List (List Int × List Int)) (c0 s0 : Nat),
      batches.foldl (fun (a : Nat × Nat) b => (a.1 + (batchCounts b).1, a.2 + (batchCounts b).2)) (c0, s0) =
        (c0 + (batches.map (fun b => (batchCounts b).1)).sum,
         s0 + (batches.map (fun b => (batchCounts b).2)).sum) := by
  intro batches
  induction batches with
  | nil => intro c0 s0; simp
  | cons b t ih =>
    intro c0 s0
    rw [List.foldl_cons, ih]
    simp only [List.map_cons, List.sum_cons, Prod.mk.injEq]
    omega

theorem zipFlatten (batches : List (List Int × List Int))
    (h : ∀ b ∈ batches, b.1.length = b.2.length) :
    (batches.map Prod.fst).flatten.zip (batches.map Prod.snd).flatten =
      (batches.map (fun b => b.1.zip b.2)).flatten := by
  induction batches with
  | nil => simp
  | cons b t ih =>
    simp only [List.map_cons, List.flatten_cons]
    rw [List.zip_append (h b (by simp)), ih (fun x hx => h x (by simp [hx]))]

/-- Claim C9: the epoch accuracy accumulated batch by batch equals
correct / total over the positions whose label is not the ignore value,
with the defined fallback 0 when nothing is considered; in particular
labels [1, -100, 2, -100] with argmax predictions [1, 5, 3, 7] give
accuracy 1/2, and an empty epoch gives 0. -/
theorem epochAccuracy_correct_over_considered :
    (∀ batches : List (List Int × List Int), (∀ b ∈ batches, b.1.length = b.2.length) →
      epochAccuracy batches =
        specAccuracy (batches.map Prod.fst).flatten (batches.map Prod.snd).flatten) ∧
    epochAccuracy [([1, 5, 3, 7], [1, -100, 2, -100])] = 1 / 2 ∧
    epochAccuracy [] = 0 := by
  refine ⟨?_, by simp [epochAccuracy, batchCounts], by simp [epochAccuracy]⟩
  intro batches h
  simp only [epochAccuracy, specAccuracy]
  rw [countersFold]
  simp only [zero_add]
  rw [zipFlatten batches h]
  have hsamp :
      ((batches.map (fun b => b.1.zip b.2)).flatten.filter (fun p => p.2 ≠ -100)).length =
        (batches.map (fun b => (batchCounts b).2)).sum := by
    rw [List.filter_flatten, List.length_flatten, List.map_map, List.map_map]
    rfl
  have hcorr :
      (((batches.map (fun b => b.1.zip b.2)).flatten.filter (fun p => p.2 ≠ -100)).filter
          (fun p => p.1 = p.2)).length =
        (batches.map (fun b => (batchCounts b).1)).sum := by
    rw [List.filter_filter]
    have hpred : (batches.map (fun b => b.1.zip b.2)).flatten.filter
          (fun a => decide (a.1 = a.2) && decide (a.2 ≠ -100)) =
        (batches.map (fun b => b.1.zip b.2)).flatten.filter (fun p => p.2 ≠ -100 ∧ p.1 = p.2) := by
      apply List.filter_congr
      intro x _
      by_cases h1 : x.1 = x.2 <;> by_cases h2 : x.2 = -100 <;> simp [h1, h2]
    rw [hpred, List.filter_flatten, List.length_flatten, List.map_map, List.map_map]
    rfl
  rw [← hsamp, ← hcorr]

/-- Claim C9 witness: a two-batch epoch matches the flattened accuracy. -/
theorem epochAccuracy_correct_over_considered_witness :
    epochAccuracy ([([1], [1]), ([2], [3])] : List (List Int × List Int)) =
      specAccuracy (([([1], [1]), ([2], [3])] : List (List Int × List Int)).map Prod.fst).flatten
        (([([1], [1]), ([2], [3])] : List (List Int × List Int)).map Prod.snd).flatten :=
  epochAccuracy_correct_over_considered.1 _ (by decide)

theorem maskRowsLoop_preserves (maskId eosId : Int) (p q : Nat) (perms : List (List Nat)) (c : Nat) :
    ∀ (is : List Nat) (h0 h1 : Heap), maskRowsLoop maskId eosId p q perms c is h0 = some h1 →
      ∀ j, j ≠ c → heapRead h1 j = heapRead h0 j := by
  intro is
  induction is with
  | nil =>
    intro h0 h1 hrun j hj
    have : h0 = h1 := by simpa [maskRowsLoop] using hrun
    rw [this]
  | cons i rest ih =>
    intro h0 h1 hrun j hj
    cases hm : maskRowWithPerm maskId eosId p q (perms.getD i []) ((heapRead h0 c).getD i []) with
    | none =>
      simp only [maskRowsLoop, hm] at hrun
      exact absurd hrun (by simp)
    | some pr =>
      obtain ⟨mrow, idxs⟩ := pr
      simp only [maskRowsLoop, hm] at hrun
      rw [ih _ _ hrun j hj]
      unfold heapRead heapWrite
      rw [getD_set]
      simp [hj]

/-- Claim C10: the heap-level masking call leaves the tensor behind the
argument reference — and every other pre-existing tensor — unchanged,
returning a freshly allocated clone reference distinct from the argument,
so the callers of both phases can still read the original ids to derive
labels after masking. -/
theorem masking_leaves_input_unchanged
    (maskId eosId : Int) (p q : Nat) (perms : List (List Nat)) (h : Heap) (ref : Nat)
    (href : ref < h.length) (h2 : Heap) (c : Nat)
    (hrun : maskingStrucSeqsIdsHeap maskId eosId p q perms h ref = some (h2, c)) :
    c ≠ ref ∧ ∀ j, j < h.length → heapRead h2 j = heapRead h j := by
  simp only [maskingStrucSeqsIdsHeap, cloneTensor] at hrun
  cases hrun2 : maskRowsLoop maskId eosId p q perms h.length
      (List.range (heapRead (h ++ [heapRead h ref]) h.length).length) (h ++ [heapRead h ref]) with
  | none => rw [hrun2] at hrun; exact absurd hrun (by simp)
  | some hh =>
    rw [hrun2] at hrun
    simp only [Option.map_some', Option.some.injEq, Prod.mk.injEq] at hrun
    obtain ⟨rfl, rfl⟩ := hrun
    refine ⟨fun hc => by omega, ?_⟩
    intro j hj
    have hne : j ≠ h.length := by omega
    rw [maskRowsLoop_preserves maskId eosId p q perms h.length _ _ _ hrun2 j hne]
    unfold heapRead
    exact List.getD_append h [h.getD ref []] [] j hj

/-- Claim C10 witness: a concrete heap with one batch tensor; the clone
gets reference 1 and the tensor behind reference 0 is unchanged. -/
theorem masking_leaves_input_unchanged_witness :
    (1 : Nat) ≠ 0 ∧
      heapRead [[[7, 10, 11, 12, 4]], [[7, 99, 11, 12, 4]]] 0 = heapRead [[[7, 10, 11, 12, 4]]] 0 :=
  ⟨(masking_leaves_input_unchanged 99 4 1 2 [[0, 1, 2]] [[[7, 10, 11, 12, 4]]] 0 (by decide)
      [[[7, 10, 11, 12, 4]], [[7, 99, 11, 12, 4]]] 1 (by decide)).1,
   (masking_leaves_input_unchanged 99 4 1 2 [[0, 1, 2]] [[[7, 10, 11, 12, 4]]] 0 (by decide)
      [[[7, 10, 11, 12, 4]], [[7, 99, 11, 12, 4]]] 1 (by decide)).2 0 (by decide)⟩
